import Mathlib

/-!
Shallow embedding of the `calculator` crate of w15eacre/study-rust:
the lexical scanner `src/calculator/src/math_expression_tokenizer/mod.rs`
and the grammar validator `src/calculator/src/math_expression_parser/mod.rs`
(the repository contains older redundant iterations of the same design in
`math_expression_tokenizer.rs` / `math_expression_parser.rs`; the `mod.rs`
module versions are the current ones and are the ones embedded here).

Modelling conventions:
 - Rust `String` is a `List Char`; byte offsets are modelled exactly, with
   `Char.utf8Size` giving the UTF-8 byte width of each character.
 - Rust `Result<T, E>` is the inductive `RustResult T E` below.
 - `f64` values are modelled as exact rationals: the only numeric operation the
   program performs is `str::parse::<f64>` on runs of ASCII digits and dots,
   modelled by `rustParseF64`, and token values are never combined arithmetically.
 - `&mut self` methods return the updated state explicitly; `next_token` returns
   its result together with the post-call scanner state (the state is mutated
   even on an `InvalidToken` error, because the whitespace skip is committed
   before the digit run is parsed).
-/

/-- Rust `Result<T, E>` with its two constructors `Ok` and `Err`. -/
inductive RustResult (α ε : Type) where
  | Ok (v : α)
  | Err (e : ε)
deriving DecidableEq, Repr

/-- Token type from `math_expression_tokenizer/mod.rs`: `Digit(f64)`,
`Operator(char)`, `OpenBrace`, `CloseBrace`.  The spec calls these
`Number`, `Operator`, `OpenParen`, `CloseParen`. -/
inductive Token where
  | Digit (v : ℚ)
  | Operator (c : Char)
  | OpenBrace
  | CloseBrace
deriving DecidableEq, Repr

/-- Error type of the tokenizer (`MathExpressionTokenizerError`): the spec's
`InvalidArgument`, `InvalidToken{offset, character}` and `NoMoreTokens`
(`NoToken` in the code). -/
inductive MathExpressionTokenizerError where
  | InvalidArgument
  | InvalidToken (idx : Nat) (ch : Char)
  | NoToken
deriving DecidableEq, Repr

/-- Error type of the parser (`MathExpressionParserError`): a wrapper for
tokenizer errors plus `InvalidExpression{idx}` and
`InvalidBraceConsequence{idx}` (the spec's `InvalidBraceSequence`). -/
inductive MathExpressionParserError where
  | Tokenizer (e : MathExpressionTokenizerError)
  | InvalidExpression (idx : Nat)
  | InvalidBraceConsequence (idx : Nat)
deriving DecidableEq, Repr

/-- Rust `char::is_whitespace`: the Unicode `White_Space` property,
listed by code point exactly as in the Unicode table Rust uses. -/
def rustIsWhitespace (c : Char) : Bool :=
  let n := c.toNat
  (9 ≤ n && n ≤ 13) || n == 32 || n == 0x85 || n == 0xA0 || n == 0x1680 ||
    (0x2000 ≤ n && n ≤ 0x200A) || n == 0x2028 || n == 0x2029 || n == 0x202F ||
    n == 0x205F || n == 0x3000

/-- Byte length of a string given as a character list (`str::len` in Rust). -/
def utf8Len (cs : List Char) : Nat :=
  (cs.map Char.utf8Size).sum

/-- Byte-indexed suffix `s[b..]` of a Rust string.  At a valid UTF-8 boundary
`b` this is the true character suffix (`dropB_append` below); the value at a
non-boundary `b` is irrelevant because Rust slicing would panic there and the
scanner provably never leaves a boundary. -/
def dropB : List Char → Nat → List Char
  | cs, 0 => cs
  | [], _ + 1 => []
  | c :: cs, b + 1 => dropB cs (b + 1 - c.utf8Size)

/-- Byte offset of the first character failing `char::is_whitespace` in a
string, as computed by `char_indices().find(|(_, ch)| !ch.is_whitespace())`. -/
def findNonWs : List Char → Option Nat
  | [] => none
  | c :: cs =>
    if rustIsWhitespace c then (findNonWs cs).map (c.utf8Size + ·) else some 0

/-- Numeric value of a list of ASCII digit characters. -/
def digitsVal (ds : List Char) : Nat :=
  ds.foldl (fun a c => 10 * a + (c.toNat - 48)) 0

/-- Character class consumed by digit-run extraction:
`ch.is_digit(10) || ch == '.'`. -/
def isDigitDot (c : Char) : Bool :=
  c.isDigit || c == '.'

/-- Model of Rust `str::parse::<f64>` restricted to the strings the scanner can
ever pass to it: runs made of ASCII digits and `.` characters.  On that
character set Rust's grammar accepts exactly the strings containing at least
one digit and at most one dot; the resulting value is modelled as the exact
decimal rational (built with `mkRat` so that it evaluates in the kernel). -/
def rustParseF64 (s : List Char) : Option ℚ :=
  if s.all isDigitDot && s.any Char.isDigit && decide (s.count '.' ≤ 1) then
    let ip := s.takeWhile (fun c => !(c == '.'))
    let fp := (s.dropWhile (fun c => !(c == '.'))).drop 1
    some (mkRat (digitsVal ip * 10 ^ fp.length + digitsVal fp) (10 ^ fp.length))
  else
    none

/-- Scanner state from `math_expression_tokenizer/mod.rs`: the owned source
string and the mutable byte cursor. -/
structure MathExpressionTokenizer where
  expr : List Char
  curr_byte_idx : Nat
deriving DecidableEq, Repr

/-- Constructor `MathExpressionTokenizer::new`: rejects the empty string with
`InvalidArgument`, otherwise sets the cursor to 0. -/
def MathExpressionTokenizer.new (expr : List Char) :
    RustResult MathExpressionTokenizer MathExpressionTokenizerError :=
  if expr = [] then .Err .InvalidArgument else .Ok ⟨expr, 0⟩

/-- Method `skip_spaces` (`&self`, non-mutating): byte offset of the first
non-whitespace character at or after the cursor, or the byte length of the
whole source if none remains. -/
def MathExpressionTokenizer.skip_spaces (t : MathExpressionTokenizer) : Nat :=
  match findNonWs (dropB t.expr t.curr_byte_idx) with
  | some i => t.curr_byte_idx + i
  | none => utf8Len t.expr

/-- Method `has_token` (`&self`, non-mutating): whether a non-whitespace
character remains at or after the cursor. -/
def MathExpressionTokenizer.has_token (t : MathExpressionTokenizer) : Bool :=
  t.skip_spaces < utf8Len t.expr

/-- Trait method `curr_index`. -/
def MathExpressionTokenizer.curr_index (t : MathExpressionTokenizer) : Nat :=
  t.curr_byte_idx

/-- Method `parse_digits` (`&self`): greedily take the maximal run of digits
and dots starting at the cursor, parse it as an `f64`; on success return the
value and the byte offset just past the run, otherwise `InvalidToken` with the
cursor offset and the first character of the run.  (The `' '` default models
the `.unwrap()` on the first character, which is unreachable from `next_token`
because the suffix is non-empty there.) -/
def MathExpressionTokenizer.parse_digits (t : MathExpressionTokenizer) :
    RustResult (ℚ × Nat) MathExpressionTokenizerError :=
  let s := dropB t.expr t.curr_byte_idx
  let run := s.takeWhile isDigitDot
  match rustParseF64 run with
  | some q => .Ok (q, t.curr_byte_idx + utf8Len run)
  | none => .Err (.InvalidToken t.curr_byte_idx (s.headD ' '))

/-- Method `next_token` (`&mut self`): returns the Rust result paired with the
post-call scanner state.  On `NoToken` the state is unchanged; otherwise the
whitespace skip is committed to the cursor first, and a failing digit run
leaves the cursor at the start of the run.  The `none` head case models the
`.unwrap()` panic on an empty suffix, unreachable when the cursor is on a
boundary because `has_token` guarantees a character remains. -/
def MathExpressionTokenizer.next_token (t : MathExpressionTokenizer) :
    RustResult (Nat × Token) MathExpressionTokenizerError × MathExpressionTokenizer :=
  if t.has_token then
    let idx := t.skip_spaces
    let t1 : MathExpressionTokenizer := ⟨t.expr, idx⟩
    match (dropB t.expr idx).head? with
    | none => (.Err .NoToken, t1)
    | some c =>
      if c = '(' then (.Ok (idx, .OpenBrace), ⟨t.expr, idx + 1⟩)
      else if c = ')' then (.Ok (idx, .CloseBrace), ⟨t.expr, idx + 1⟩)
      else if c = '+' ∨ c = '-' ∨ c = '*' ∨ c = '/' then
        (.Ok (idx, .Operator c), ⟨t.expr, idx + 1⟩)
      else
        match t1.parse_digits with
        | .Ok (q, j) => (.Ok (idx, .Digit q), ⟨t.expr, j⟩)
        | .Err e => (.Err e, t1)
  else
    (.Err .NoToken, t)

/-- State reached after `n` successive `next_token` calls (interleaved
`has_token` / `curr_index` calls take `&self` and cannot change the state). -/
def iterNext : Nat → MathExpressionTokenizer → MathExpressionTokenizer
  | 0, t => t
  | n + 1, t => iterNext n (t.next_token).2

/-- Successive `next_token` results up to the first error: the list of `Ok`
pulls, the terminating error, and the scanner state after the failing call.
This is exactly the information the validator's `while let Ok(...)` loop
consumes.  The fuel argument only bounds the recursion; `utf8Len expr + 1` is
always enough because every successful pull strictly advances the cursor, so
the fuel-exhaustion branch (which reports `InvalidArgument`, an error
`next_token` itself never returns) is unreachable from `runScanStr`. -/
def scanPulls :
    Nat → MathExpressionTokenizer →
    List (Nat × Token) × MathExpressionTokenizerError × MathExpressionTokenizer
  | 0, t => ([], .InvalidArgument, t)
  | fuel + 1, t =>
    match t.next_token with
    | (.Ok p, t') =>
      let r := scanPulls fuel t'
      (p :: r.1, r.2)
    | (.Err e, t') => ([], e, t')

/-- All scanner pulls for a fresh scanner over `s`. -/
def runScanStr (s : List Char) :
    List (Nat × Token) × MathExpressionTokenizerError × MathExpressionTokenizer :=
  scanPulls (utf8Len s + 1) ⟨s, 0⟩

/-- Test from the validator: `matches!(last_token, Operator(_) | OpenBrace)`. -/
def tokIsOpOrOpen : Token → Bool
  | .Operator _ => true
  | .OpenBrace => true
  | _ => false

/-- Test from the validator: `matches!(last_token, Digit(_) | CloseBrace)`. -/
def tokIsNumOrClose : Token → Bool
  | .Digit _ => true
  | .CloseBrace => true
  | _ => false

/-- Loop body of `MathExpressionParser::parse`, iterated over the pulled
tokens: checks each token against the last token of the accumulated output,
maintains the brace-offset stack (head = most recently pushed), and stops with
`InvalidExpression{idx}` at the first violation. -/
def validateLoop :
    List Token → List Nat → List (Nat × Token) →
    RustResult (List Token × List Nat) MathExpressionParserError
  | acc, braces, [] => .Ok (acc, braces)
  | acc, braces, (idx, tok) :: rest =>
    match tok with
    | .OpenBrace =>
      match acc.getLast? with
      | some lt =>
        if tokIsOpOrOpen lt then validateLoop (acc ++ [tok]) (idx :: braces) rest
        else .Err (.InvalidExpression idx)
      | none => validateLoop (acc ++ [tok]) (idx :: braces) rest
    | .CloseBrace =>
      match braces with
      | [] => .Err (.InvalidExpression idx)
      | _ :: braces' =>
        match acc.getLast? with
        | none => .Err (.InvalidExpression idx)
        | some lt =>
          if tokIsNumOrClose lt then validateLoop (acc ++ [tok]) braces' rest
          else .Err (.InvalidExpression idx)
    | .Digit _ =>
      match acc.getLast? with
      | some lt =>
        if tokIsOpOrOpen lt then validateLoop (acc ++ [tok]) braces rest
        else .Err (.InvalidExpression idx)
      | none => validateLoop (acc ++ [tok]) braces rest
    | .Operator _ =>
      match acc.getLast? with
      | none => .Err (.InvalidExpression idx)
      | some lt =>
        if tokIsNumOrClose lt then validateLoop (acc ++ [tok]) braces rest
        else .Err (.InvalidExpression idx)

/-- Post-loop test `matches!(expression.last(), Some(Operator(_) | OpenBrace))`. -/
def lastIsOpOrOpen (acc : List Token) : Bool :=
  match acc.getLast? with
  | some lt => tokIsOpOrOpen lt
  | none => false

/-- `MathExpressionParser::parse` from `math_expression_parser/mod.rs`.  The
`while let Ok((idx, token)) = tokenizer.next_token()` loop stops on ANY scanner
error, silently discarding it (the discarded error is the `r.2.1` component
below); then the trailing-token check uses `tokenizer.curr_index()` and the
brace-stack check reports the most recently pushed unmatched offset.  The
returned `MathExpression` struct is modelled as its single field, the token
vector. -/
def MathExpressionParser.parse (t : MathExpressionTokenizer) :
    RustResult (List Token) MathExpressionParserError :=
  let r := scanPulls (utf8Len t.expr + 1) t
  match validateLoop [] [] r.1 with
  | .Err e => .Err e
  | .Ok (acc, braces) =>
    if lastIsOpOrOpen acc then .Err (.InvalidExpression r.2.2.curr_index)
    else
      match braces with
      | [] => .Ok acc
      | i :: _ => .Err (.InvalidBraceConsequence i)

/-- End-to-end entry point: construct the scanner (wrapping a construction
error via the `#[from]` conversion into `MathExpressionParserError::Tokenizer`)
and run the validator, as callers of the library do. -/
def parseStr (s : List Char) : RustResult (List Token) MathExpressionParserError :=
  match MathExpressionTokenizer.new s with
  | .Err e => .Err (.Tokenizer e)
  | .Ok t => MathExpressionParser.parse t

/-! Specification-side predicates used to state the claims. -/

/-- Parenthesis depth tracking: `none` when a `CloseBrace` appears at depth 0;
`parenDepth ts 0 = some 0` says `ts` is balanced and properly nested. -/
def parenDepth : List Token → Nat → Option Nat
  | [], d => some d
  | t :: ts, d =>
    match t with
    | .OpenBrace => parenDepth ts (d + 1)
    | .CloseBrace => if d = 0 then none else parenDepth ts (d - 1)
    | _ => parenDepth ts d

/-- Placement rules of the claim, as a relation between a token and its
immediate predecessor: an `Operator` needs a `Digit`/`CloseBrace` before it, an
`OpenBrace` needs an `Operator`/`OpenBrace`, a `CloseBrace` needs a
`Digit`/`CloseBrace`; the claim imposes no rule on a `Digit`'s predecessor. -/
def adjTok (p t : Token) : Bool :=
  match t with
  | .Operator _ => tokIsNumOrClose p
  | .OpenBrace => tokIsOpOrOpen p
  | .CloseBrace => tokIsNumOrClose p
  | .Digit _ => true

/-- Stricter adjacency the validator actually enforces: additionally a `Digit`
must follow an `Operator` or `OpenBrace`. -/
def adjCode (p t : Token) : Bool :=
  match t with
  | .Operator _ => tokIsNumOrClose p
  | .OpenBrace => tokIsOpOrOpen p
  | .CloseBrace => tokIsNumOrClose p
  | .Digit _ => tokIsOpOrOpen p

/-- A token allowed in first position (never an `Operator`, which needs a
predecessor, nor a `CloseBrace`, which needs a `Digit`/`CloseBrace` before it). -/
def headTokOk : Token → Bool
  | .Operator _ => false
  | .CloseBrace => false
  | _ => true

/-- Recognizer for `Operator` tokens. -/
def tokIsOperator : Token → Bool
  | .Operator _ => true
  | _ => false

/-- Decidable test that byte offset `b` is a UTF-8 character boundary of the
string (including its end). -/
def isBoundaryB (cs : List Char) (b : Nat) : Bool :=
  (List.range (cs.length + 1)).any fun k => utf8Len (cs.take k) == b

/-- The source text does not end in a (Rust) whitespace character. -/
def noTrailingWs (s : List Char) : Bool :=
  match s.getLast? with
  | some c => !rustIsWhitespace c
  | none => true

/-- Propositional form of the boundary invariant: the cursor splits the source
into a character prefix and suffix. -/
def Bdry (t : MathExpressionTokenizer) : Prop :=
  ∃ a b, t.expr = a ++ b ∧ t.curr_byte_idx = utf8Len a

/-! Lemmas: byte lengths, byte-indexed suffixes and boundaries. -/

theorem utf8Len_nil : utf8Len [] = 0 := rfl

theorem utf8Len_cons (c : Char) (cs : List Char) :
    utf8Len (c :: cs) = c.utf8Size + utf8Len cs := by
  simp [utf8Len]

theorem utf8Len_append (l r : List Char) :
    utf8Len (l ++ r) = utf8Len l + utf8Len r := by
  simp [utf8Len]

theorem utf8Len_pos {cs : List Char} (h : cs ≠ []) : 0 < utf8Len cs := by
  cases cs with
  | nil => exact absurd rfl h
  | cons c cs =>
    have := Char.utf8Size_pos c
    simp [utf8Len_cons]
    omega

theorem dropB_zero (cs : List Char) : dropB cs 0 = cs := by
  cases cs <;> rfl

theorem dropB_append (l r : List Char) : dropB (l ++ r) (utf8Len l) = r := by
  induction l with
  | nil => simpa [utf8Len_nil] using dropB_zero r
  | cons c l ih =>
    have hpos := Char.utf8Size_pos c
    obtain ⟨m, hm⟩ : ∃ m, c.utf8Size + utf8Len l = m + 1 :=
      ⟨c.utf8Size + utf8Len l - 1, by omega⟩
    rw [List.cons_append, utf8Len_cons, hm]
    show dropB (l ++ r) (m + 1 - c.utf8Size) = r
    have : m + 1 - c.utf8Size = utf8Len l := by omega
    rw [this]
    exact ih

theorem dropB_utf8Len (cs : List Char) : dropB cs (utf8Len cs) = [] := by
  simpa using dropB_append cs []

theorem isBoundaryB_iff (cs : List Char) (b : Nat) :
    isBoundaryB cs b = true ↔ ∃ a c, cs = a ++ c ∧ b = utf8Len a := by
  constructor
  · intro h
    simp only [isBoundaryB, List.any_eq_true, List.mem_range, beq_iff_eq] at h
    obtain ⟨k, _, hk⟩ := h
    exact ⟨cs.take k, cs.drop k, (List.take_append_drop k cs).symm, hk.symm⟩
  · rintro ⟨a, c, rfl, rfl⟩
    simp only [isBoundaryB, List.any_eq_true, List.mem_range, beq_iff_eq]
    refine ⟨a.length, by simp; omega, ?_⟩
    rw [List.take_left]

/-! Lemmas: whitespace search. -/

theorem findNonWs_none (s : List Char) :
    findNonWs s = none ↔ ∀ c ∈ s, rustIsWhitespace c = true := by
  induction s with
  | nil => simp [findNonWs]
  | cons c cs ih =>
    by_cases hw : rustIsWhitespace c = true
    · simp [findNonWs, hw, ih]
    · have hw' : rustIsWhitespace c = false := by simpa using hw
      simp [findNonWs, hw']

theorem findNonWs_some {s : List Char} {i : Nat} (h : findNonWs s = some i) :
    ∃ a c b, s = a ++ c :: b ∧ (∀ x ∈ a, rustIsWhitespace x = true) ∧
      rustIsWhitespace c = false ∧ i = utf8Len a := by
  induction s generalizing i with
  | nil => simp [findNonWs] at h
  | cons c cs ih =>
    by_cases hw : rustIsWhitespace c = true
    · rw [findNonWs, if_pos hw, Option.map_eq_some'] at h
      obtain ⟨j, hj, rfl⟩ := h
      obtain ⟨a, c', b, rfl, ha, hc', rfl⟩ := ih hj
      exact ⟨c :: a, c', b, rfl, by
        intro x hx
        rcases List.mem_cons.mp hx with rfl | hx
        · exact hw
        · exact ha x hx, hc', by rw [utf8Len_cons]⟩
    · rw [findNonWs, if_neg hw] at h
      obtain rfl : (0 : Nat) = i := Option.some.inj h
      exact ⟨[], c, cs, rfl, by simp, by simpa using hw, rfl⟩

theorem getLast?_mem' {α : Type} : ∀ {l : List α} {a : α}, l.getLast? = some a → a ∈ l := by
  intro l
  induction l with
  | nil => intro a h; simp at h
  | cons x xs ih =>
    intro a h
    cases xs with
    | nil =>
      simp [List.getLast?] at h
      simp [h]
    | cons y ys =>
      rw [List.getLast?_cons_cons] at h
      exact List.mem_cons.mpr (Or.inr (ih h))

/-! Lemmas: whitespace skipping and the scanner step. -/

theorem has_token_iff (t : MathExpressionTokenizer) :
    t.has_token = true ↔ t.skip_spaces < utf8Len t.expr := by
  simp [MathExpressionTokenizer.has_token]

theorem skip_spaces_eq_some {t : MathExpressionTokenizer} {i : Nat}
    (h : findNonWs (dropB t.expr t.curr_byte_idx) = some i) :
    t.skip_spaces = t.curr_byte_idx + i := by
  unfold MathExpressionTokenizer.skip_spaces
  rw [h]

theorem skip_spaces_eq_none {t : MathExpressionTokenizer}
    (h : findNonWs (dropB t.expr t.curr_byte_idx) = none) :
    t.skip_spaces = utf8Len t.expr := by
  unfold MathExpressionTokenizer.skip_spaces
  rw [h]

theorem skip_spaces_split {t : MathExpressionTokenizer} (hb : Bdry t)
    (ht : t.has_token = true) :
    ∃ a c b, t.expr = a ++ c :: b ∧ rustIsWhitespace c = false ∧
      t.skip_spaces = utf8Len a ∧ t.curr_byte_idx ≤ utf8Len a := by
  obtain ⟨p, q, hpq, hc⟩ := hb
  have hdrop : dropB t.expr t.curr_byte_idx = q := by
    rw [hpq, hc]; exact dropB_append p q
  rw [has_token_iff] at ht
  cases hf : findNonWs q with
  | none =>
    rw [skip_spaces_eq_none (by rw [hdrop]; exact hf)] at ht
    omega
  | some i =>
    have hsk := skip_spaces_eq_some (t := t) (by rw [hdrop]; exact hf)
    obtain ⟨a', c, b, hq, _, hcws, hi⟩ := findNonWs_some hf
    refine ⟨p ++ a', c, b, by rw [hpq, hq, List.append_assoc], hcws, ?_, ?_⟩
    · rw [hsk, hc, hi, utf8Len_append]
    · rw [hc, utf8Len_append]; omega

theorem has_token_false_ws {t : MathExpressionTokenizer} (hb : Bdry t)
    (ht : t.has_token = false) :
    ∀ c ∈ dropB t.expr t.curr_byte_idx, rustIsWhitespace c = true := by
  obtain ⟨p, q, hpq, hc⟩ := hb
  have hdrop : dropB t.expr t.curr_byte_idx = q := by
    rw [hpq, hc]; exact dropB_append p q
  rw [hdrop]
  cases hf : findNonWs q with
  | none => exact (findNonWs_none q).mp hf
  | some i =>
    exfalso
    have hsk := skip_spaces_eq_some (t := t) (by rw [hdrop]; exact hf)
    obtain ⟨a', c, b, hq, _, _, hi⟩ := findNonWs_some hf
    have hlt : t.skip_spaces < utf8Len t.expr := by
      rw [hsk, hpq, hq, hc, hi, utf8Len_append, utf8Len_append, utf8Len_cons]
      have := Char.utf8Size_pos c
      omega
    rw [← has_token_iff] at hlt
    rw [ht] at hlt
    exact Bool.false_ne_true hlt

theorem end_curr {t : MathExpressionTokenizer} (hb : Bdry t)
    (ht : t.has_token = false) (hw : noTrailingWs t.expr = true) :
    t.curr_byte_idx = utf8Len t.expr := by
  obtain ⟨p, q, hpq, hc⟩ := hb
  cases q with
  | nil => rw [hpq, hc]; simp
  | cons x xs =>
    exfalso
    have hallws := has_token_false_ws ⟨p, x :: xs, hpq, hc⟩ ht
    have hdrop : dropB t.expr t.curr_byte_idx = x :: xs := by
      rw [hpq, hc]; exact dropB_append p (x :: xs)
    rw [hdrop] at hallws
    obtain ⟨y, hy⟩ : ∃ y, (x :: xs).getLast? = some y := by
      cases hxs : (x :: xs).getLast? with
      | none => simp [List.getLast?_eq_none_iff] at hxs
      | some y => exact ⟨y, rfl⟩
    have hymem : y ∈ x :: xs := getLast?_mem' hy
    have hyws : rustIsWhitespace y = true := hallws y hymem
    unfold noTrailingWs at hw
    rw [hpq, List.getLast?_append, hy] at hw
    simp [hyws] at hw

theorem next_token_spec {t : MathExpressionTokenizer} (hb : Bdry t) :
    (t.has_token = false ∧ t.next_token = (.Err .NoToken, t)) ∨
    (∃ a c b, t.has_token = true ∧ t.expr = a ++ c :: b ∧ rustIsWhitespace c = false ∧
      t.skip_spaces = utf8Len a ∧ t.curr_byte_idx ≤ utf8Len a ∧
      ((c = '(' ∧ t.next_token = (.Ok (utf8Len a, .OpenBrace), ⟨t.expr, utf8Len a + 1⟩)) ∨
       (c = ')' ∧ t.next_token = (.Ok (utf8Len a, .CloseBrace), ⟨t.expr, utf8Len a + 1⟩)) ∨
       ((c = '+' ∨ c = '-' ∨ c = '*' ∨ c = '/') ∧ c ≠ '(' ∧ c ≠ ')' ∧
         t.next_token = (.Ok (utf8Len a, .Operator c), ⟨t.expr, utf8Len a + 1⟩)) ∨
       (c ≠ '(' ∧ c ≠ ')' ∧ ¬(c = '+' ∨ c = '-' ∨ c = '*' ∨ c = '/') ∧
         ((∃ q, rustParseF64 ((c :: b).takeWhile isDigitDot) = some q ∧
            t.next_token = (.Ok (utf8Len a, .Digit q),
              ⟨t.expr, utf8Len a + utf8Len ((c :: b).takeWhile isDigitDot)⟩)) ∨
          (rustParseF64 ((c :: b).takeWhile isDigitDot) = none ∧
            t.next_token = (.Err (.InvalidToken (utf8Len a) c), ⟨t.expr, utf8Len a⟩)))))) := by
  by_cases ht : t.has_token = true
  · right
    obtain ⟨a, c, b, hsplit, hcws, hskip, hle⟩ := skip_spaces_split hb ht
    refine ⟨a, c, b, ht, hsplit, hcws, hskip, hle, ?_⟩
    have hdrop : dropB t.expr (utf8Len a) = c :: b := by
      rw [hsplit]; exact dropB_append a (c :: b)
    have hnt : t.next_token =
        (if c = '(' then (.Ok (utf8Len a, .OpenBrace), ⟨t.expr, utf8Len a + 1⟩)
         else if c = ')' then (.Ok (utf8Len a, .CloseBrace), ⟨t.expr, utf8Len a + 1⟩)
         else if c = '+' ∨ c = '-' ∨ c = '*' ∨ c = '/' then
           (.Ok (utf8Len a, .Operator c), ⟨t.expr, utf8Len a + 1⟩)
         else
           match (⟨t.expr, utf8Len a⟩ : MathExpressionTokenizer).parse_digits with
           | .Ok (q, j) => (.Ok (utf8Len a, .Digit q), ⟨t.expr, j⟩)
           | .Err e => (.Err e, ⟨t.expr, utf8Len a⟩)) := by
      unfold MathExpressionTokenizer.next_token
      rw [if_pos ht]
      simp only [hskip, hdrop, List.head?_cons]
    by_cases h1 : c = '('
    · exact Or.inl ⟨h1, by rw [hnt, if_pos h1]⟩
    · by_cases h2 : c = ')'
      · exact Or.inr (Or.inl ⟨h2, by rw [hnt, if_neg h1, if_pos h2]⟩)
      · by_cases h3 : c = '+' ∨ c = '-' ∨ c = '*' ∨ c = '/'
        · exact Or.inr (Or.inr (Or.inl ⟨h3, h1, h2,
            by rw [hnt, if_neg h1, if_neg h2, if_pos h3]⟩))
        · refine Or.inr (Or.inr (Or.inr ⟨h1, h2, h3, ?_⟩))
          have hpd : (⟨t.expr, utf8Len a⟩ : MathExpressionTokenizer).parse_digits =
              (match rustParseF64 ((c :: b).takeWhile isDigitDot) with
               | some q => .Ok (q, utf8Len a + utf8Len ((c :: b).takeWhile isDigitDot))
               | none => .Err (.InvalidToken (utf8Len a) c)) := by
            unfold MathExpressionTokenizer.parse_digits
            simp only [hdrop, List.headD_cons]
          cases hpf : rustParseF64 ((c :: b).takeWhile isDigitDot) with
          | some q =>
            refine Or.inl ⟨q, rfl, ?_⟩
            rw [hnt, if_neg h1, if_neg h2, if_neg h3, hpd, hpf]
          | none =>
            refine Or.inr ⟨rfl, ?_⟩
            rw [hnt, if_neg h1, if_neg h2, if_neg h3, hpd, hpf]
  · left
    have ht' : t.has_token = false := by simpa using ht
    refine ⟨ht', ?_⟩
    unfold MathExpressionTokenizer.next_token
    rw [if_neg ht]

theorem next_token_expr {t : MathExpressionTokenizer} (hb : Bdry t) :
    (t.next_token).2.expr = t.expr := by
  rcases next_token_spec hb with ⟨_, h⟩ | ⟨a, c, b, _, _, _, _, _, hcase⟩
  · rw [h]
  · rcases hcase with ⟨_, h⟩ | ⟨_, h⟩ | ⟨_, _, _, h⟩ | ⟨_, _, _, ⟨q, _, h⟩ | ⟨_, h⟩⟩ <;>
      rw [h]

theorem next_token_mono {t : MathExpressionTokenizer} (hb : Bdry t) :
    t.curr_byte_idx ≤ (t.next_token).2.curr_byte_idx := by
  rcases next_token_spec hb with ⟨_, h⟩ | ⟨a, c, b, _, _, _, _, hle, hcase⟩
  · rw [h]
  · rcases hcase with ⟨_, h⟩ | ⟨_, h⟩ | ⟨_, _, _, h⟩ | ⟨_, _, _, ⟨q, _, h⟩ | ⟨_, h⟩⟩ <;>
      rw [h] <;> simp <;> omega

theorem next_token_bdry {t : MathExpressionTokenizer} (hb : Bdry t) :
    Bdry (t.next_token).2 := by
  rcases next_token_spec hb with ⟨_, h⟩ | ⟨a, c, b, _, hsplit, _, _, _, hcase⟩
  · rw [h]; exact hb
  · rcases hcase with ⟨hc, h⟩ | ⟨hc, h⟩ | ⟨hc, _, _, h⟩ | ⟨_, _, _, ⟨q, _, h⟩ | ⟨_, h⟩⟩
    · subst hc
      exact ⟨a ++ ['('], b, by rw [h, hsplit]; simp,
        by rw [h, utf8Len_append]; rfl⟩
    · subst hc
      exact ⟨a ++ [')'], b, by rw [h, hsplit]; simp,
        by rw [h, utf8Len_append]; rfl⟩
    · refine ⟨a ++ [c], b, by rw [h, hsplit]; simp, ?_⟩
      rw [h, utf8Len_append]
      rcases hc with rfl | rfl | rfl | rfl <;> rfl
    · refine ⟨a ++ (c :: b).takeWhile isDigitDot, (c :: b).dropWhile isDigitDot, ?_, ?_⟩
      · rw [h, hsplit, List.append_assoc, List.takeWhile_append_dropWhile]
      · rw [h, utf8Len_append]
    · exact ⟨a, c :: b, by rw [h, hsplit], by rw [h]⟩

theorem next_token_noToken {t : MathExpressionTokenizer} (hb : Bdry t)
    (he : (t.next_token).1 = .Err .NoToken) :
    (t.next_token).2 = t ∧ t.has_token = false := by
  rcases next_token_spec hb with ⟨hf, h⟩ | ⟨a, c, b, _, _, _, _, _, hcase⟩
  · rw [h]; exact ⟨rfl, hf⟩
  · exfalso
    rcases hcase with ⟨_, h⟩ | ⟨_, h⟩ | ⟨_, _, _, h⟩ | ⟨_, _, _, ⟨q, _, h⟩ | ⟨_, h⟩⟩ <;>
      rw [h] at he <;> simp at he

/-! Lemmas: the pull loop over the scanner. -/

theorem scanPulls_succ (n : Nat) (t : MathExpressionTokenizer) :
    scanPulls (n + 1) t =
      (match t.next_token with
       | (.Ok p, t') => ((p :: (scanPulls n t').1), (scanPulls n t').2)
       | (.Err e, t') => ([], e, t')) := rfl

theorem scanPulls_inv :
    ∀ (fuel : Nat) (t : MathExpressionTokenizer), Bdry t →
      (scanPulls fuel t).2.2.expr = t.expr ∧ Bdry (scanPulls fuel t).2.2 ∧
        ((scanPulls fuel t).2.1 = .NoToken → (scanPulls fuel t).2.2.has_token = false) := by
  intro fuel
  induction fuel with
  | zero =>
    intro t hb
    exact ⟨rfl, hb, by intro h; exact absurd h (by simp [scanPulls])⟩
  | succ n ih =>
    intro t hb
    cases hnt : t.next_token with
    | mk res t' =>
      have hb' : Bdry t' := by have := next_token_bdry hb; rwa [hnt] at this
      have hexpr : t'.expr = t.expr := by have := next_token_expr hb; rwa [hnt] at this
      cases res with
      | Ok p =>
        rw [scanPulls_succ, hnt]
        dsimp only
        obtain ⟨h1, h2, h3⟩ := ih t' hb'
        exact ⟨by rw [h1, hexpr], h2, h3⟩
      | Err e =>
        rw [scanPulls_succ, hnt]
        dsimp only
        refine ⟨hexpr, hb', ?_⟩
        rintro rfl
        obtain ⟨h1, h2⟩ := next_token_noToken hb (by rw [hnt])
        rw [hnt] at h1
        dsimp only at h1
        rw [h1]
        exact h2

theorem bdry_isBoundaryB {t : MathExpressionTokenizer} (hb : Bdry t) :
    isBoundaryB t.expr t.curr_byte_idx = true :=
  (isBoundaryB_iff _ _).mpr hb

theorem iterNext_bdry (n : Nat) :
    ∀ t, Bdry t → Bdry (iterNext n t) ∧ (iterNext n t).expr = t.expr := by
  induction n with
  | zero => exact fun t hb => ⟨hb, rfl⟩
  | succ n ih =>
    intro t hb
    show Bdry (iterNext n (t.next_token).2) ∧ (iterNext n (t.next_token).2).expr = t.expr
    obtain ⟨h1, h2⟩ := ih (t.next_token).2 (next_token_bdry hb)
    exact ⟨h1, by rw [h2, next_token_expr hb]⟩

theorem iterNext_mono (n : Nat) :
    ∀ t, Bdry t →
      (iterNext n t).curr_byte_idx ≤ (iterNext (n + 1) t).curr_byte_idx := by
  induction n with
  | zero => exact fun t hb => next_token_mono hb
  | succ n ih =>
    intro t hb
    show (iterNext n (t.next_token).2).curr_byte_idx ≤
      (iterNext (n + 1) (t.next_token).2).curr_byte_idx
    exact ih (t.next_token).2 (next_token_bdry hb)

theorem iterNext_of_fix {t : MathExpressionTokenizer}
    (hf : (t.next_token).2 = t) : ∀ n, iterNext n t = t := by
  intro n
  induction n with
  | zero => rfl
  | succ n ih =>
    show iterNext n (t.next_token).2 = t
    rw [hf]
    exact ih

theorem next_token_congr {t u : MathExpressionTokenizer} (hexpr : u.expr = t.expr)
    (hskip : u.skip_spaces = t.skip_spaces) (hht : u.has_token = true)
    (htrue : t.has_token = true) : u.next_token = t.next_token := by
  unfold MathExpressionTokenizer.next_token
  rw [if_pos hht, if_pos htrue, hexpr, hskip]

/-- C8: for a Scanner built from a non-empty source, every sequence of
`has_token` / `next_token` calls (`has_token` takes `&self` and cannot change
the state, so sequences are captured by iterating `next_token`) keeps the
cursor on a valid UTF-8 boundary of the unchanged source (or at its end), and
the cursor is monotonically non-decreasing from each call to the next. -/
theorem C8_cursor_boundary_monotone (s : List Char) (_h : s ≠ []) (n : Nat) :
    (iterNext n ⟨s, 0⟩).expr = s ∧
      isBoundaryB s (iterNext n ⟨s, 0⟩).curr_byte_idx = true ∧
      (iterNext n ⟨s, 0⟩).curr_byte_idx ≤ (iterNext (n + 1) ⟨s, 0⟩).curr_byte_idx := by
  have hb0 : Bdry ⟨s, 0⟩ := ⟨[], s, rfl, rfl⟩
  obtain ⟨hbd, hexpr⟩ := iterNext_bdry n ⟨s, 0⟩ hb0
  refine ⟨hexpr, ?_, iterNext_mono n ⟨s, 0⟩ hb0⟩
  have := bdry_isBoundaryB hbd
  rwa [hexpr] at this

/-- Witness for C8 at the concrete source `"1 +"` after one call. -/
theorem C8_witness :
    (iterNext 1 ⟨['1', ' ', '+'], 0⟩).expr = ['1', ' ', '+'] ∧
      isBoundaryB ['1', ' ', '+'] (iterNext 1 ⟨['1', ' ', '+'], 0⟩).curr_byte_idx = true ∧
      (iterNext 1 ⟨['1', ' ', '+'], 0⟩).curr_byte_idx ≤
        (iterNext 2 ⟨['1', ' ', '+'], 0⟩).curr_byte_idx :=
  C8_cursor_boundary_monotone ['1', ' ', '+'] (by decide) 1

/-- C10: when `next_token` fails with `InvalidToken`, the whitespace skip has
been committed but the offending run is not consumed: the post-call cursor
equals the error offset, which is the post-skip position; and the post-call
state is a fixpoint of `next_token`, returning the very same `InvalidToken`
error (same offset, same character) on this and hence on every subsequent
call.  The boundary hypothesis is the reachable-state invariant established by
`C8_cursor_boundary_monotone`. -/
theorem C10_invalid_token_sticky (t : MathExpressionTokenizer) (i : Nat) (c : Char)
    (hbB : isBoundaryB t.expr t.curr_byte_idx = true)
    (he : (t.next_token).1 = .Err (.InvalidToken i c)) :
    (t.next_token).2 = ⟨t.expr, i⟩ ∧ i = t.skip_spaces ∧
      (⟨t.expr, i⟩ : MathExpressionTokenizer).next_token =
        (.Err (.InvalidToken i c), ⟨t.expr, i⟩) ∧
      ∀ n, iterNext n (t.next_token).2 = (t.next_token).2 := by
  have hb : Bdry t := (isBoundaryB_iff _ _).mp hbB
  rcases next_token_spec hb with ⟨_, h⟩ | ⟨a, c0, b, htk, hsplit, hcws, hskip, _, hcase⟩
  · rw [h] at he
    simp at he
  · rcases hcase with ⟨_, h⟩ | ⟨_, h⟩ | ⟨_, _, _, h⟩ |
      ⟨h1, h2, h3, ⟨q, _, h⟩ | ⟨hpf, h⟩⟩
    · rw [h] at he; simp at he
    · rw [h] at he; simp at he
    · rw [h] at he; simp at he
    · rw [h] at he; simp at he
    · rw [h] at he
      dsimp only at he
      obtain ⟨hi, hc⟩ : utf8Len a = i ∧ c0 = c := by
        cases he
        exact ⟨rfl, rfl⟩
      subst hi
      subst hc
      have hstate : (t.next_token).2 = ⟨t.expr, utf8Len a⟩ := by rw [h]
      have ht1expr : (⟨t.expr, utf8Len a⟩ : MathExpressionTokenizer).expr = t.expr := rfl
      have hdrop1 :
          dropB t.expr (utf8Len a) = c0 :: b := by
        rw [hsplit]
        exact dropB_append a (c0 :: b)
      have hsk1 : (⟨t.expr, utf8Len a⟩ : MathExpressionTokenizer).skip_spaces =
          t.skip_spaces := by
        have hfw : findNonWs (c0 :: b) = some 0 := by
          rw [findNonWs, if_neg (by rw [hcws]; exact Bool.false_ne_true)]
        have hss := skip_spaces_eq_some
          (t := ⟨t.expr, utf8Len a⟩) (i := 0) (by dsimp only; rw [hdrop1]; exact hfw)
        rw [hss, hskip]
        rfl
      have hht1 : (⟨t.expr, utf8Len a⟩ : MathExpressionTokenizer).has_token = true := by
        rw [has_token_iff, hsk1, ← has_token_iff]
        exact htk
      have hfix : (⟨t.expr, utf8Len a⟩ : MathExpressionTokenizer).next_token =
          (.Err (.InvalidToken (utf8Len a) c0), ⟨t.expr, utf8Len a⟩) := by
        rw [next_token_congr ht1expr hsk1 hht1 htk, h]
      refine ⟨hstate, hskip.symm, hfix, ?_⟩
      rw [hstate]
      exact iterNext_of_fix (by rw [hfix])

/-- Witness for C10 at the concrete scanner over `"1..2"`, whose digit run
fails to parse, giving `InvalidToken{0, '1'}`. -/
theorem C10_witness :
    ((⟨['1', '.', '.', '2'], 0⟩ : MathExpressionTokenizer).next_token).2 =
        ⟨['1', '.', '.', '2'], 0⟩ ∧
      0 = (⟨['1', '.', '.', '2'], 0⟩ : MathExpressionTokenizer).skip_spaces ∧
      (⟨['1', '.', '.', '2'], 0⟩ : MathExpressionTokenizer).next_token =
        (.Err (.InvalidToken 0 '1'), ⟨['1', '.', '.', '2'], 0⟩) ∧
      ∀ n, iterNext n ((⟨['1', '.', '.', '2'], 0⟩ : MathExpressionTokenizer).next_token).2 =
        ((⟨['1', '.', '.', '2'], 0⟩ : MathExpressionTokenizer).next_token).2 :=
  C10_invalid_token_sticky ⟨['1', '.', '.', '2'], 0⟩ 0 '1' (by decide) (by decide)

theorem parenDepth_append (l l' : List Token) :
    ∀ d, parenDepth (l ++ l') d = (parenDepth l d).bind (parenDepth l') := by
  induction l with
  | nil => intro d; simp [parenDepth]
  | cons t ts ih =>
    intro d
    cases t with
    | OpenBrace => simp [parenDepth, ih]
    | CloseBrace =>
      by_cases hd : d = 0
      · simp [parenDepth, hd]
      · simp [parenDepth, hd, ih]
    | Digit q => simp [parenDepth, ih]
    | Operator c => simp [parenDepth, ih]

theorem validateLoop_inv :
    ∀ (pulls : List (Nat × Token)) (acc : List Token) (braces : List Nat)
      (out : List Token × List Nat),
      validateLoop acc braces pulls = .Ok out →
      parenDepth acc 0 = some braces.length →
      List.Chain' (fun x y => adjCode x y = true) acc →
      (∀ x ∈ acc.head?, headTokOk x = true) →
      parenDepth out.1 0 = some out.2.length ∧
        List.Chain' (fun x y => adjCode x y = true) out.1 ∧
        (∀ x ∈ out.1.head?, headTokOk x = true) := by
  intro pulls
  induction pulls with
  | nil =>
    intro acc braces out h hd hc hh
    unfold validateLoop at h
    injection h with h2
    subst h2
    exact ⟨hd, hc, hh⟩
  | cons p rest ih =>
    obtain ⟨idx, tok⟩ := p
    intro acc braces out h hd hc hh
    have hstep :
        ∀ (tok' : Token) (braces2 : List Nat),
          validateLoop (acc ++ [tok']) braces2 rest = .Ok out →
          (∀ x ∈ acc.getLast?, adjCode x tok' = true) →
          (acc = [] → headTokOk tok' = true) →
          parenDepth (acc ++ [tok']) 0 = some braces2.length →
          parenDepth out.1 0 = some out.2.length ∧
            List.Chain' (fun x y => adjCode x y = true) out.1 ∧
            (∀ x ∈ out.1.head?, headTokOk x = true) := by
      intro tok' braces2 h' hadj hhead hd'
      refine ih (acc ++ [tok']) braces2 out h' hd' ?_ ?_
      · rw [List.chain'_append]
        exact ⟨hc, List.chain'_singleton tok', by
          intro x hx y hy
          simp at hy
          subst hy
          exact hadj x hx⟩
      · cases acc with
        | nil =>
          intro x hx
          simp at hx
          subst hx
          exact hhead rfl
        | cons a as =>
          intro x hx
          simp at hx
          subst hx
          exact hh a (by simp)
    cases tok with
    | OpenBrace =>
      unfold validateLoop at h
      dsimp only at h
      cases hl : acc.getLast? with
      | some lt =>
        rw [hl] at h
        dsimp only at h
        by_cases hg : tokIsOpOrOpen lt = true
        · rw [if_pos hg] at h
          refine hstep .OpenBrace (idx :: braces) h ?_ (fun _ => rfl) ?_
          · intro x hx
            rw [hl] at hx
            simp at hx
            subst hx
            exact hg
          · rw [parenDepth_append, hd]
            simp [parenDepth]
        · rw [if_neg hg] at h
          cases h
      | none =>
        rw [hl] at h
        dsimp only at h
        refine hstep .OpenBrace (idx :: braces) h ?_ (fun _ => rfl) ?_
        · intro x hx
          rw [hl] at hx
          simp at hx
        · rw [parenDepth_append, hd]
          simp [parenDepth]
    | CloseBrace =>
      unfold validateLoop at h
      dsimp only at h
      cases braces with
      | nil => dsimp only at h; cases h
      | cons b0 braces' =>
        dsimp only at h
        cases hl : acc.getLast? with
        | none => rw [hl] at h; dsimp only at h; cases h
        | some lt =>
          rw [hl] at h
          dsimp only at h
          by_cases hg : tokIsNumOrClose lt = true
          · rw [if_pos hg] at h
            refine hstep .CloseBrace braces' h ?_ (fun hacc => by rw [hacc] at hl; simp at hl) ?_
            · intro x hx
              rw [hl] at hx
              simp at hx
              subst hx
              exact hg
            · rw [parenDepth_append, hd]
              simp [parenDepth]
          · rw [if_neg hg] at h
            cases h
    | Digit q =>
      unfold validateLoop at h
      dsimp only at h
      cases hl : acc.getLast? with
      | some lt =>
        rw [hl] at h
        dsimp only at h
        by_cases hg : tokIsOpOrOpen lt = true
        · rw [if_pos hg] at h
          refine hstep (.Digit q) braces h ?_ (fun _ => rfl) ?_
          · intro x hx
            rw [hl] at hx
            simp at hx
            subst hx
            simp only [adjCode]
            exact hg
          · rw [parenDepth_append, hd]
            simp [parenDepth]
        · rw [if_neg hg] at h
          cases h
      | none =>
        rw [hl] at h
        dsimp only at h
        refine hstep (.Digit q) braces h ?_ (fun _ => rfl) ?_
        · intro x hx
          rw [hl] at hx
          simp at hx
        · rw [parenDepth_append, hd]
          simp [parenDepth]
    | Operator c =>
      unfold validateLoop at h
      dsimp only at h
      cases hl : acc.getLast? with
      | none => rw [hl] at h; dsimp only at h; cases h
      | some lt =>
        rw [hl] at h
        dsimp only at h
        by_cases hg : tokIsNumOrClose lt = true
        · rw [if_pos hg] at h
          refine hstep (.Operator c) braces h ?_ (fun hacc => by rw [hacc] at hl; simp at hl) ?_
          · intro x hx
            rw [hl] at hx
            simp at hx
            subst hx
            exact hg
          · rw [parenDepth_append, hd]
            simp [parenDepth]
        · rw [if_neg hg] at h
          cases h

theorem validateLoop_braces :
    ∀ (pulls : List (Nat × Token)) (acc : List Token) (braces : List Nat)
      (out : List Token × List Nat),
      validateLoop acc braces pulls = .Ok out →
      ∀ j ∈ out.2, j ∈ braces ∨ (j, Token.OpenBrace) ∈ pulls := by
  intro pulls
  induction pulls with
  | nil =>
    intro acc braces out h j hj
    unfold validateLoop at h
    injection h with h2
    subst h2
    exact Or.inl hj
  | cons p rest ih =>
    obtain ⟨idx, tok⟩ := p
    intro acc braces out h j hj
    cases tok with
    | OpenBrace =>
      unfold validateLoop at h
      dsimp only at h
      cases hl : acc.getLast? with
      | some lt =>
        rw [hl] at h
        dsimp only at h
        by_cases hg : tokIsOpOrOpen lt = true
        · rw [if_pos hg] at h
          rcases ih _ _ _ h j hj with hbr | hrest
          · rcases List.mem_cons.mp hbr with rfl | hbr'
            · exact Or.inr (List.mem_cons_self _ _)
            · exact Or.inl hbr'
          · exact Or.inr (List.mem_cons_of_mem _ hrest)
        · rw [if_neg hg] at h
          cases h
      | none =>
        rw [hl] at h
        dsimp only at h
        rcases ih _ _ _ h j hj with hbr | hrest
        · rcases List.mem_cons.mp hbr with rfl | hbr'
          · exact Or.inr (List.mem_cons_self _ _)
          · exact Or.inl hbr'
        · exact Or.inr (List.mem_cons_of_mem _ hrest)
    | CloseBrace =>
      unfold validateLoop at h
      dsimp only at h
      cases braces with
      | nil => dsimp only at h; cases h
      | cons b0 braces' =>
        dsimp only at h
        cases hl : acc.getLast? with
        | none => rw [hl] at h; dsimp only at h; cases h
        | some lt =>
          rw [hl] at h
          dsimp only at h
          by_cases hg : tokIsNumOrClose lt = true
          · rw [if_pos hg] at h
            rcases ih _ _ _ h j hj with hbr | hrest
            · exact Or.inl (List.mem_cons_of_mem _ hbr)
            · exact Or.inr (List.mem_cons_of_mem _ hrest)
          · rw [if_neg hg] at h
            cases h
    | Digit q =>
      unfold validateLoop at h
      dsimp only at h
      cases hl : acc.getLast? with
      | some lt =>
        rw [hl] at h
        dsimp only at h
        by_cases hg : tokIsOpOrOpen lt = true
        · rw [if_pos hg] at h
          rcases ih _ _ _ h j hj with hbr | hrest
          · exact Or.inl hbr
          · exact Or.inr (List.mem_cons_of_mem _ hrest)
        · rw [if_neg hg] at h
          cases h
      | none =>
        rw [hl] at h
        dsimp only at h
        rcases ih _ _ _ h j hj with hbr | hrest
        · exact Or.inl hbr
        · exact Or.inr (List.mem_cons_of_mem _ hrest)
    | Operator c =>
      unfold validateLoop at h
      dsimp only at h
      cases hl : acc.getLast? with
      | none => rw [hl] at h; dsimp only at h; cases h
      | some lt =>
        rw [hl] at h
        dsimp only at h
        by_cases hg : tokIsNumOrClose lt = true
        · rw [if_pos hg] at h
          rcases ih _ _ _ h j hj with hbr | hrest
          · exact Or.inl hbr
          · exact Or.inr (List.mem_cons_of_mem _ hrest)
        · rw [if_neg hg] at h
          cases h

theorem adjCode_imp_adjTok {a b : Token} (h : adjCode a b = true) : adjTok a b = true := by
  cases b <;> simp_all [adjCode, adjTok]

theorem not_opOrOpen_not_operator {x : Token} (h : tokIsOpOrOpen x = false) :
    tokIsOperator x = false := by
  cases x <;> simp_all [tokIsOpOrOpen, tokIsOperator]

theorem parse_eq (t : MathExpressionTokenizer) :
    MathExpressionParser.parse t =
      (match validateLoop [] [] (scanPulls (utf8Len t.expr + 1) t).1 with
       | .Err e => .Err e
       | .Ok (acc, braces) =>
         if lastIsOpOrOpen acc then
           .Err (.InvalidExpression (scanPulls (utf8Len t.expr + 1) t).2.2.curr_index)
         else
           match braces with
           | [] => .Ok acc
           | i :: _ => .Err (.InvalidBraceConsequence i)) := rfl

/-- C4: any token sequence returned successfully by the Validator satisfies all
four placement rules of the claim: parentheses balanced and properly nested
(`parenDepth e 0 = some 0`); adjacency rules for Operator, OpenParen and
CloseParen (`Chain' adjTok`); no Operator or CloseParen first; no Operator
last. -/
theorem C4_validated_placement (t : MathExpressionTokenizer) (e : List Token)
    (h : MathExpressionParser.parse t = .Ok e) :
    parenDepth e 0 = some 0 ∧
      List.Chain' (fun x y => adjTok x y = true) e ∧
      (∀ x ∈ e.head?, headTokOk x = true) ∧
      (∀ x ∈ e.getLast?, tokIsOperator x = false) := by
  rw [parse_eq] at h
  cases hv : validateLoop [] [] (scanPulls (utf8Len t.expr + 1) t).1 with
  | Err e' => rw [hv] at h; dsimp only at h; cases h
  | Ok pr =>
    obtain ⟨acc, braces⟩ := pr
    rw [hv] at h
    dsimp only at h
    by_cases hlast : lastIsOpOrOpen acc = true
    · rw [if_pos hlast] at h; cases h
    · rw [if_neg hlast] at h
      cases braces with
      | cons i br => dsimp only at h; cases h
      | nil =>
        dsimp only at h
        injection h with h2
        subst h2
        obtain ⟨hd, hcn, hh⟩ := validateLoop_inv _ [] [] (acc, []) hv
          (by simp [parenDepth]) (by simp) (by simp)
        refine ⟨by simpa using hd, ?_, hh, ?_⟩
        · exact hcn.imp fun a b hab => adjCode_imp_adjTok hab
        · intro x hx
          have hx' : acc.getLast? = some x := hx
          unfold lastIsOpOrOpen at hlast
          rw [hx'] at hlast
          exact not_opOrOpen_not_operator (by simpa using hlast)

/-- Witness for C4 at the accepted expression `"(1+2)*3"`. -/
theorem C4_witness :
    parenDepth [Token.OpenBrace, Token.Digit 1, Token.Operator '+', Token.Digit 2,
        Token.CloseBrace, Token.Operator '*', Token.Digit 3] 0 = some 0 ∧
      List.Chain' (fun x y => adjTok x y = true)
        [Token.OpenBrace, Token.Digit 1, Token.Operator '+', Token.Digit 2,
          Token.CloseBrace, Token.Operator '*', Token.Digit 3] ∧
      (∀ x ∈ ([Token.OpenBrace, Token.Digit 1, Token.Operator '+', Token.Digit 2,
          Token.CloseBrace, Token.Operator '*', Token.Digit 3] : List Token).head?,
        headTokOk x = true) ∧
      (∀ x ∈ ([Token.OpenBrace, Token.Digit 1, Token.Operator '+', Token.Digit 2,
          Token.CloseBrace, Token.Operator '*', Token.Digit 3] : List Token).getLast?,
        tokIsOperator x = false) :=
  C4_validated_placement ⟨['(', '1', '+', '2', ')', '*', '3'], 0⟩ _ (by decide)

theorem parseStr_ne {s : List Char} (h : s ≠ []) :
    parseStr s = MathExpressionParser.parse ⟨s, 0⟩ := by
  unfold parseStr MathExpressionTokenizer.new
  rw [if_neg h]

/-- C2 (amended): when the token stream ends cleanly while the accumulated
output is non-empty and ends in an Operator or OpenParen, validation fails
with `InvalidExpression` at the end of the source text, PROVIDED the source
has no trailing whitespace (the offset the code reports is the scanner's final
cursor, which with trailing whitespace stops short of the byte length — see
the counterexample `C2_cex_trailing_ws`).  In particular `"1+"` fails with
`InvalidExpression{offset=2}` (`C2_witness`). -/
theorem C2_trailing_operator_offset (s : List Char) (pulls : List (Nat × Token))
    (tf : MathExpressionTokenizer) (acc : List Token) (br : List Nat)
    (hne : s ≠ []) (hw : noTrailingWs s = true)
    (hscan : runScanStr s = (pulls, .NoToken, tf))
    (hval : validateLoop [] [] pulls = .Ok (acc, br))
    (hlast : lastIsOpOrOpen acc = true) :
    parseStr s = .Err (.InvalidExpression (utf8Len s)) := by
  have hscan' : scanPulls (utf8Len s + 1) ⟨s, 0⟩ = (pulls, .NoToken, tf) := hscan
  have hcurr : tf.curr_byte_idx = utf8Len s := by
    have hinv := scanPulls_inv (utf8Len s + 1) ⟨s, 0⟩ ⟨[], s, rfl, rfl⟩
    rw [hscan'] at hinv
    obtain ⟨hexpr, hbd, hnt⟩ := hinv
    have h1 := end_curr hbd (hnt rfl) (by rwa [show tf.expr = s from hexpr])
    rw [h1, show tf.expr = s from hexpr]
  rw [parseStr_ne hne, parse_eq]
  dsimp only
  rw [hscan']
  dsimp only
  rw [hval]
  dsimp only
  rw [if_pos hlast]
  rw [show tf.curr_index = utf8Len s from hcurr]

/-- Witness for C2 at `"1+"`: the trailing-operator failure offset equals the
byte length 2, exactly as the claim's example states. -/
theorem C2_witness :
    parseStr ['1', '+'] = .Err (.InvalidExpression (utf8Len ['1', '+'])) ∧
      utf8Len ['1', '+'] = 2 :=
  ⟨C2_trailing_operator_offset ['1', '+'] [(0, .Digit 1), (1, .Operator '+')]
      ⟨['1', '+'], 2⟩ [.Digit 1, .Operator '+'] [] (by decide) (by decide)
      (by decide) (by decide) (by decide),
    by decide⟩

/-- C2 counterexample: for `"1+ "` (trailing whitespace) the stream ends
cleanly with the output ending in an Operator, but the reported offset is 2,
the scanner's final cursor, NOT the byte length 3 of the source text — so the
claim's "offset equals the end of the source text (its byte length)" is false
in general. -/
theorem C2_cex_trailing_ws :
    runScanStr ['1', '+', ' '] =
        ([(0, .Digit 1), (1, .Operator '+')], .NoToken, ⟨['1', '+', ' '], 2⟩) ∧
      parseStr ['1', '+', ' '] = .Err (.InvalidExpression 2) ∧
      utf8Len ['1', '+', ' '] = 3 ∧ (2 : Nat) ≠ 3 := by
  refine ⟨by decide, by decide, by decide, by decide⟩

/-- C5: when the stream ends cleanly with a non-empty brace stack and the last
output token is not an Operator/OpenParen, validation fails with
`InvalidBraceConsequence` (the spec's `InvalidBraceSequence`) at the offset on
top of the brace stack — the most recently pushed unmatched OpenParen, which
is indeed the offset of an OpenParen token that was pulled. -/
theorem C5_unclosed_paren (s : List Char) (pulls : List (Nat × Token))
    (tf : MathExpressionTokenizer) (acc : List Token) (i : Nat) (br : List Nat)
    (hne : s ≠ [])
    (hscan : runScanStr s = (pulls, .NoToken, tf))
    (hval : validateLoop [] [] pulls = .Ok (acc, i :: br))
    (hlast : lastIsOpOrOpen acc = false) :
    parseStr s = .Err (.InvalidBraceConsequence i) ∧ (i, Token.OpenBrace) ∈ pulls := by
  have hscan' : scanPulls (utf8Len s + 1) ⟨s, 0⟩ = (pulls, .NoToken, tf) := hscan
  constructor
  · rw [parseStr_ne hne, parse_eq]
    dsimp only
    rw [hscan']
    dsimp only
    rw [hval]
    dsimp only
    rw [if_neg (by rw [hlast]; exact Bool.false_ne_true)]
  · rcases validateLoop_braces pulls [] [] (acc, i :: br) hval i (by simp) with h | h
    · simp at h
    · exact h

/-- Witness for C5 at `"(1+2"`: fails with `InvalidBraceConsequence{offset=0}`,
the offset of the unmatched OpenParen. -/
theorem C5_witness :
    parseStr ['(', '1', '+', '2'] = .Err (.InvalidBraceConsequence 0) ∧
      (0, Token.OpenBrace) ∈
        [(0, Token.OpenBrace), (1, Token.Digit 1), (2, Token.Operator '+'),
          (3, Token.Digit 2)] :=
  C5_unclosed_paren ['(', '1', '+', '2']
    [(0, Token.OpenBrace), (1, Token.Digit 1), (2, Token.Operator '+'), (3, Token.Digit 2)]
    ⟨['(', '1', '+', '2'], 4⟩
    [Token.OpenBrace, Token.Digit 1, Token.Operator '+', Token.Digit 2] 0 []
    (by decide) (by decide) (by decide) (by decide)

theorem isDigit_toNat {c : Char} (h : c.isDigit = true) :
    48 ≤ c.toNat ∧ c.toNat ≤ 57 := by
  unfold Char.isDigit at h
  simp at h
  obtain ⟨h1, h2⟩ := h
  constructor
  · exact_mod_cast h1
  · exact_mod_cast h2

theorem isDigitDot_not_ws {c : Char} (h : isDigitDot c = true) :
    rustIsWhitespace c = false := by
  have h' : c.isDigit = true ∨ c = '.' := by simpa [isDigitDot] using h
  rcases h' with hd | rfl
  · obtain ⟨h1, h2⟩ := isDigit_toNat hd
    cases hb : rustIsWhitespace c with
    | false => rfl
    | true =>
      exfalso
      unfold rustIsWhitespace at hb
      simp at hb
      omega
  · decide

theorem isDigitDot_not_special {c : Char} (h : isDigitDot c = true) :
    c ≠ '(' ∧ c ≠ ')' ∧ ¬(c = '+' ∨ c = '-' ∨ c = '*' ∨ c = '/') := by
  refine ⟨?_, ?_, ?_⟩
  · rintro rfl; exact absurd h (by decide)
  · rintro rfl; exact absurd h (by decide)
  · rintro (rfl | rfl | rfl | rfl) <;> exact absurd h (by decide)

/-- C9: a non-empty all-whitespace source yields no tokens (`has_token` is
false from the start) and validates successfully to the empty sequence. -/
theorem C9_whitespace_only (s : List Char) (hne : s ≠ [])
    (hws : ∀ c ∈ s, rustIsWhitespace c = true) :
    (⟨s, 0⟩ : MathExpressionTokenizer).has_token = false ∧ parseStr s = .Ok [] := by
  have hsk : (⟨s, 0⟩ : MathExpressionTokenizer).skip_spaces = utf8Len s :=
    skip_spaces_eq_none (by
      show findNonWs (dropB s 0) = none
      rw [dropB_zero]
      exact (findNonWs_none s).mpr hws)
  have hht : (⟨s, 0⟩ : MathExpressionTokenizer).has_token = false := by
    unfold MathExpressionTokenizer.has_token
    rw [hsk]
    simp
  have hnt : (⟨s, 0⟩ : MathExpressionTokenizer).next_token = (.Err .NoToken, ⟨s, 0⟩) := by
    unfold MathExpressionTokenizer.next_token
    rw [if_neg (by rw [hht]; exact Bool.false_ne_true)]
  refine ⟨hht, ?_⟩
  rw [parseStr_ne hne, parse_eq]
  dsimp only
  rw [scanPulls_succ, hnt]
  rfl

/-- Witness for C9 at the one-space source `" "`. -/
theorem C9_witness :
    (⟨[' '], 0⟩ : MathExpressionTokenizer).has_token = false ∧
      parseStr [' '] = .Ok [] :=
  C9_whitespace_only [' '] (by decide) (by decide)

/-- C3 (amended): scanning a non-empty string of ASCII digits and at most one
dot THAT CONTAINS AT LEAST ONE DIGIT yields exactly one Number token carrying
the parsed value, at offset 0, after which the Scanner is exhausted.  (Without
a digit — the source `"."` — the numeric parse fails; see `C3_cex_lone_dot`.) -/
theorem C3_digit_run_single_token (s : List Char) (hne : s ≠ [])
    (hall : ∀ c ∈ s, isDigitDot c = true) (hdot : s.count '.' ≤ 1)
    (hdig : ∃ c ∈ s, c.isDigit = true) :
    ∃ q, rustParseF64 s = some q ∧
      runScanStr s = ([(0, Token.Digit q)], .NoToken, ⟨s, utf8Len s⟩) ∧
      (⟨s, utf8Len s⟩ : MathExpressionTokenizer).has_token = false := by
  obtain ⟨c, cs, rfl⟩ : ∃ c cs, s = c :: cs := by
    cases s with
    | nil => exact absurd rfl hne
    | cons c cs => exact ⟨c, cs, rfl⟩
  have hguard : ((c :: cs).all isDigitDot && ((c :: cs).any Char.isDigit &&
      decide ((c :: cs).count '.' ≤ 1))) = true := by
    simp only [Bool.and_eq_true, List.all_eq_true, List.any_eq_true,
      decide_eq_true_eq]
    exact ⟨hall, hdig, hdot⟩
  obtain ⟨q, hq⟩ : ∃ q, rustParseF64 (c :: cs) = some q := by
    unfold rustParseF64
    rw [if_pos (by simpa [Bool.and_assoc] using hguard)]
    exact ⟨_, rfl⟩
  have hcdd : isDigitDot c = true := hall c (by simp)
  have hcws : rustIsWhitespace c = false := isDigitDot_not_ws hcdd
  obtain ⟨hs1, hs2, hs3⟩ := isDigitDot_not_special hcdd
  have hdropz : dropB (c :: cs) 0 = c :: cs := dropB_zero _
  have hsk0 : (⟨c :: cs, 0⟩ : MathExpressionTokenizer).skip_spaces = 0 := by
    have hfw : findNonWs (c :: cs) = some 0 := by
      rw [findNonWs, if_neg (by rw [hcws]; exact Bool.false_ne_true)]
    have hss := skip_spaces_eq_some (t := ⟨c :: cs, 0⟩) (i := 0)
      (by dsimp only; rw [hdropz]; exact hfw)
    simpa using hss
  have hht : (⟨c :: cs, 0⟩ : MathExpressionTokenizer).has_token = true := by
    rw [has_token_iff, hsk0]
    exact utf8Len_pos (by simp)
  have hrun : (c :: cs).takeWhile isDigitDot = c :: cs :=
    List.takeWhile_eq_self_iff.mpr hall
  have hpd : (⟨c :: cs, 0⟩ : MathExpressionTokenizer).parse_digits =
      .Ok (q, utf8Len (c :: cs)) := by
    unfold MathExpressionTokenizer.parse_digits
    dsimp only
    rw [hdropz, hrun, hq]
    show RustResult.Ok (q, 0 + utf8Len (c :: cs)) = _
    rw [Nat.zero_add]
  have hnt0 : (⟨c :: cs, 0⟩ : MathExpressionTokenizer).next_token =
      (.Ok (0, .Digit q), ⟨c :: cs, utf8Len (c :: cs)⟩) := by
    unfold MathExpressionTokenizer.next_token
    rw [if_pos hht]
    dsimp only
    rw [hsk0, hdropz]
    simp only [List.head?_cons]
    rw [if_neg hs1, if_neg hs2, if_neg hs3, hpd]
  have hsk1 : (⟨c :: cs, utf8Len (c :: cs)⟩ : MathExpressionTokenizer).skip_spaces =
      utf8Len (c :: cs) :=
    skip_spaces_eq_none (by dsimp only; rw [dropB_utf8Len]; rfl)
  have hht1 : (⟨c :: cs, utf8Len (c :: cs)⟩ : MathExpressionTokenizer).has_token =
      false := by
    unfold MathExpressionTokenizer.has_token
    rw [hsk1]
    simp
  have hnt1 : (⟨c :: cs, utf8Len (c :: cs)⟩ : MathExpressionTokenizer).next_token =
      (.Err .NoToken, ⟨c :: cs, utf8Len (c :: cs)⟩) := by
    unfold MathExpressionTokenizer.next_token
    rw [if_neg (by rw [hht1]; exact Bool.false_ne_true)]
  refine ⟨q, hq, ?_, hht1⟩
  show scanPulls (utf8Len (c :: cs) + 1) ⟨c :: cs, 0⟩ = _
  obtain ⟨m, hm⟩ : ∃ m, utf8Len (c :: cs) + 1 = m + 1 + 1 := by
    have := utf8Len_pos (show (c :: cs) ≠ [] by simp)
    exact ⟨utf8Len (c :: cs) - 1, by omega⟩
  rw [hm, scanPulls_succ, hnt0]
  dsimp only
  rw [scanPulls_succ, hnt1]

/-- Witness for C3 at `"1.5"`. -/
theorem C3_witness :
    ∃ q, rustParseF64 ['1', '.', '5'] = some q ∧
      runScanStr ['1', '.', '5'] =
        ([(0, Token.Digit q)], .NoToken, ⟨['1', '.', '5'], utf8Len ['1', '.', '5']⟩) ∧
      (⟨['1', '.', '5'], utf8Len ['1', '.', '5']⟩ : MathExpressionTokenizer).has_token =
        false :=
  C3_digit_run_single_token ['1', '.', '5'] (by decide) (by decide) (by decide)
    (by decide)

/-- C3 counterexample: `"."` is a non-empty string of digits and at most one
dot, yet scanning it yields NO Number token: the digit run fails to parse and
the scanner reports `InvalidToken{0, '.'}`. -/
theorem C3_cex_lone_dot :
    (∀ c ∈ ['.'], isDigitDot c = true) ∧ ['.'].count '.' ≤ 1 ∧
      runScanStr ['.'] = ([], .InvalidToken 0 '.', ⟨['.'], 0⟩) := by
  decide

/-- C1 (bug evidence): on `"1..2"` the first `next_token` call fails with
`InvalidToken{0, '1'}`, yet `parse` returns `Ok` with an EMPTY token sequence:
the `while let Ok(...)` loop discards the scanner error instead of propagating
it (the dead `MathExpressionParserError::Tokenizer` wrapper variant shows
propagation was the intent). -/
theorem C1_scanner_error_swallowed :
    runScanStr ['1', '.', '.', '2'] =
        ([], .InvalidToken 0 '1', ⟨['1', '.', '.', '2'], 0⟩) ∧
      parseStr ['1', '.', '.', '2'] = .Ok [] := by
  decide

/-- C6: scanning `"-0"` yields `Operator('-')` at offset 0 then `Number(0.0)`
at offset 1, and validation fails with `InvalidExpression{offset=0}` because
the Operator is first. -/
theorem C6_unary_minus_rejected :
    runScanStr ['-', '0'] =
        ([(0, .Operator '-'), (1, .Digit 0)], .NoToken, ⟨['-', '0'], 2⟩) ∧
      parseStr ['-', '0'] = .Err (.InvalidExpression 0) := by
  decide

/-- C7: `"(1+2)*3"` validates successfully to exactly the claimed sequence. -/
theorem C7_example_accepted :
    parseStr ['(', '1', '+', '2', ')', '*', '3'] =
      .Ok [.OpenBrace, .Digit 1, .Operator '+', .Digit 2, .CloseBrace,
        .Operator '*', .Digit 3] := by
  decide
